import Mathlib

/-! Verification of the dual-coordinate text-buffer core of the TextEditor
repository (`text_editor.py`, with the word-aware variant in
`text_editor_fancy.py`).

Strings are modelled as `List Char` and Python integers as `Int` (arbitrary
precision).  Python's floor division and modulo (`divmod`, `//`, `%`) coincide
with Lean's euclidean `/` and `%` on `Int` whenever the divisor is positive,
which is the only situation the editor uses them in (`line_limit > 0` is a
validated invariant).  Python list slices and indices that are provably
non-negative on the editor's domain are rendered with `List.take` / `List.getD`.
-/

namespace TE

/-- Python module constant `UNSUPPORTED_CHARS = ["\a", "\b", "\f", "\r", "\v"]`,
in exactly this order (BEL, BS, FF, CR, VT). -/
def UNSUPPORTED_CHARS : List Char := ['\x07', '\x08', '\x0c', '\x0d', '\x0b']

/-- The greedy chunking loop of `_wrap_lines` applied to one raw (logical)
line: `while len(raw_line) > self._line_limit: sub_lines.append(raw_line[:limit]);
raw_line = raw_line[limit:]` followed by `sub_lines.append(raw_line)`.
The `0 < limit` conjunct is the termination guard; the editor validates
`line_limit > 0` before it is ever stored. -/
def chunks (limit : Nat) (s : List Char) : List (List Char) :=
  if _h : limit < s.length ∧ 0 < limit then
    s.take limit :: chunks limit (s.drop limit)
  else
    [s]
termination_by s.length
decreasing_by
  simp only [List.length_drop]
  omega

/-- `self._display_lines` as recomputed by `_wrap_lines`: the text is split on
the newline character and every raw line is chunked greedily. -/
def displayLines (limit : Nat) (text : List Char) : List (List (List Char)) :=
  (text.splitOn '\n').map (chunks limit)

/-- `self._logic_lines` as recomputed by `_wrap_lines`: the flattened list of
all display lines (this is the source's name for the flat list). -/
def logicLines (limit : Nat) (text : List Char) : List (List Char) :=
  (displayLines limit text).flatten

/-- Inner loop of `_absolute_to_wrapped_index` over the display lines of one
logical line.  `Sum.inl` models a `return`; `Sum.inr (wl, a)` models falling
off the inner `for` loop with the updated `wrapped_line` and `abs_index`. -/
def a2wGroup (limit : Nat) : Int → Int → List (List Char) → (Int × Int) ⊕ (Int × Int)
  | wl, a, [] => Sum.inr (wl, a)
  | wl, a, dl :: rest =>
    if a ≤ (dl.length : Int) then
      if rest = [] then Sum.inl (wl, a)
      else Sum.inl (wl + a / (limit : Int), a % (limit : Int))
    else
      a2wGroup limit (wl + 1) (a - (dl.length : Int)) rest

/-- Outer loop of `_absolute_to_wrapped_index`.  After each logical line the
newline separator is consumed (`abs_index -= 1`).  `fb` is the length of
`self._display_lines[-1][-1]`, used by the fall-back return. -/
def a2wGroups (limit : Nat) (fb : Nat) : Int → Int → List (List (List Char)) → Int × Int
  | wl, _, [] => (wl - 1, (fb : Int))
  | wl, a, g :: gs =>
    match a2wGroup limit wl a g with
    | Sum.inl r => r
    | Sum.inr (wl', a') => a2wGroups limit fb wl' (a' - 1) gs

/-- `_absolute_to_wrapped_index`: convert an absolute index into a wrapped
(line, col) cursor.  The index is first clamped to `[0, len(text)]`. -/
def absoluteToWrappedIndex (limit : Nat) (text : List Char) (absIdx : Int) : Int × Int :=
  let a := max 0 (min absIdx (text.length : Int))
  let dls := displayLines limit text
  a2wGroups limit ((dls.getLastD []).getLastD []).length 0 a dls

/-- Python slice `xs[:r]` for an arbitrary integer bound `r`. -/
def pySliceTo (r : Int) (xs : List α) : List α :=
  if 0 ≤ r then xs.take r.toNat else xs.take ((xs.length : Int) + r).toNat

/-- Total character count of one logical line's display lines. -/
def groupLen (g : List (List Char)) : Nat := (g.map List.length).sum

/-- The `for orig_display_lines in self._display_lines` loop of
`_wrapped_to_absolute_index`: skip whole logical lines (adding one for each
newline separator) while `remaining_wrapped >= count`, otherwise add the
lengths of the first `remaining_wrapped` display lines and break. -/
def w2aGroups : Int → Int → List (List (List Char)) → Int
  | _, acc, [] => acc
  | rem, acc, g :: gs =>
    if (g.length : Int) ≤ rem then
      w2aGroups (rem - g.length) (acc + (groupLen g : Int) + 1) gs
    else
      acc + (groupLen (pySliceTo rem g) : Int)

/-- `_wrapped_to_absolute_index`: convert a wrapped (line, col) cursor into an
absolute index.  Column overflow is folded into line increments with the
virtual wrap width `line_limit + 1`, and the final result is clamped to
`len(text)` (except on the fast path for wrapped line 0). -/
def wrappedToAbsoluteIndex (limit : Nat) (text : List Char) (line col : Int) : Int :=
  if text = [] then 0
  else
    let ww : Int := (limit : Int) + 1
    let l := line + col / ww
    let c := col % ww
    if l = 0 then c
    else min (w2aGroups l 0 (displayLines limit text) + c) (text.length : Int)

/-- The state of a `TextEditor` object.  The wrap partition (`_display_lines`,
`_logic_lines`) is not a field: the `_text` property setter and the
`line_limit` setter rewrap synchronously on every change, so in every reachable
object state the cached partition equals `displayLines lineLimit text` /
`logicLines lineLimit text`. -/
structure EditorState where
  lineLimit : Nat
  text : List Char
  absCursor : Int
deriving DecidableEq

/-- The `cursor` property getter. -/
def cursorRead (s : EditorState) : Int × Int :=
  absoluteToWrappedIndex s.lineLimit s.text s.absCursor

/-- The body of the `cursor` property setter, after `__validate_cursor` has
accepted the pair: one overflow fold (`char -= limit; line += 1` when
`char > limit`), clamping of `line` into the logic-line list, clamping of
`char` to the target line's length (or snapping to the end of the last line),
then conversion to an absolute index, clamped to `len(text)`. -/
def cursorSetAbs (limit : Nat) (text : List Char) (line col : Int) : Int :=
  let ll := logicLines limit text
  let N : Int := ll.length
  let line1 : Int := if (limit : Int) < col then line + 1 else line
  let col1 : Int := if (limit : Int) < col then col - limit else col
  let line2 : Int := min line1 N
  let line3 : Int := if N ≤ line2 then N - 1 else line2
  let col2 : Int :=
    if N ≤ line2 then ((ll.getD (N - 1).toNat []).length : Int)
    else min col1 ((ll.getD line2.toNat []).length : Int)
  min (wrappedToAbsoluteIndex limit text line3 col2) (text.length : Int)

/-- The `cursor` setter as a state transition (validated arguments). -/
def cursorSetState (s : EditorState) (line col : Int) : EditorState :=
  { s with absCursor := cursorSetAbs s.lineLimit s.text line col }

/-- `move_left`. -/
def moveLeft (s : EditorState) : EditorState :=
  { s with absCursor := max (s.absCursor - 1) 0 }

/-- `move_right`. -/
def moveRight (s : EditorState) : EditorState :=
  { s with absCursor := min (s.absCursor + 1) (s.text.length : Int) }

/-- `move_up`. -/
def moveUp (s : EditorState) : EditorState :=
  let lc := cursorRead s
  let l0 := lc.1 - 1
  let p : Int × Int := if lc.2 = (s.lineLimit : Int) then (l0 + 1, 0) else (l0, lc.2)
  let p2 : Int × Int := if p.1 < 0 ∨ p.2 < 0 then (0, 0) else p
  cursorSetState s p2.1 p2.2

/-- `move_down`. -/
def moveDown (s : EditorState) : EditorState :=
  let lc := cursorRead s
  let c := if lc.2 = (s.lineLimit : Int) then 0 else lc.2
  cursorSetState s (lc.1 + 1) c

/-- `move_home` (`self.cursor = 0, 0`, through the setter). -/
def moveHome (s : EditorState) : EditorState := cursorSetState s 0 0

/-- `move_end` (`self.cursor = len(logic_lines) - 1, len(logic_lines[-1])`). -/
def moveEnd (s : EditorState) : EditorState :=
  let ll := logicLines s.lineLimit s.text
  cursorSetState s ((ll.length : Int) - 1) ((ll.getLastD []).length : Int)

/-- Errors surfaced by the editor. -/
inductive PyError where
  | typeError
  | valueError
  | unsupportedChar (c : Char)
deriving DecidableEq

/-- The character reported by `insert`: the loop
`for c in UNSUPPORTED_CHARS: if c in text: raise UnsupportedCharacterError(c)`
raises on the first element of `UNSUPPORTED_CHARS` (in list order) that occurs
anywhere in the inserted text. -/
def firstUnsupported (t : List Char) : Option Char :=
  UNSUPPORTED_CHARS.find? (fun c => t.contains c)

/-- `_insert`: splice the text at the absolute cursor and advance the cursor. -/
def insertUnchecked (s : EditorState) (t : List Char) : EditorState :=
  { s with
    text := s.text.take s.absCursor.toNat ++ t ++ s.text.drop s.absCursor.toNat
    absCursor := s.absCursor + (t.length : Int) }

/-- `insert` for string arguments: a no-op for the empty string, otherwise
raise `UnsupportedCharacterError` (second component) without touching the
state, or splice the text.  The first component is the object state after the
call, also when the call raised. -/
def insertOp (s : EditorState) (t : List Char) : EditorState × Option PyError :=
  if t.length = 0 then (s, none)
  else
    match firstUnsupported t with
    | some c => (s, some (PyError.unsupportedChar c))
    | none => (insertUnchecked s t, none)

/-- `delete`: remove the character at the absolute cursor; no-op at the end of
the buffer. -/
def deleteOp (s : EditorState) : EditorState :=
  if s.absCursor = (s.text.length : Int) then s
  else { s with text := s.text.take s.absCursor.toNat ++ s.text.drop (s.absCursor.toNat + 1) }

/-- `backspace`: no-op at offset 0, otherwise `move_left()` then `delete()`. -/
def backspaceOp (s : EditorState) : EditorState :=
  if s.absCursor = 0 then s else deleteOp (moveLeft s)

/-- The `text` deleter: reset the buffer and the cursor, keep the limit. -/
def textDelOp (s : EditorState) : EditorState :=
  { s with text := [], absCursor := 0 }

/-- The `line_limit` setter after validation: a no-op when the value is
unchanged, otherwise store it (the rewrap is implicit here because the wrap
partition is recomputed from the state). -/
def lineLimitSetState (s : EditorState) (v : Nat) : EditorState :=
  if v = s.lineLimit then s else { s with lineLimit := v }

/-- `TextEditor(line_limit)` with no initial text. -/
def construct0 (limit : Nat) : EditorState := ⟨limit, [], 0⟩

/-- Object states reachable through the public interface: construction with a
validated line limit followed by any sequence of inserts, deletions,
movements, cursor assignments (validated, hence with non-negative
components), line-limit changes (validated, hence positive) and text
clearing. -/
inductive Reachable : EditorState → Prop where
  | construct (limit : Nat) (h : 0 < limit) : Reachable (construct0 limit)
  | insert (s : EditorState) (t : List Char) : Reachable s → Reachable (insertOp s t).1
  | delete (s : EditorState) : Reachable s → Reachable (deleteOp s)
  | backspace (s : EditorState) : Reachable s → Reachable (backspaceOp s)
  | moveLeft (s : EditorState) : Reachable s → Reachable (moveLeft s)
  | moveRight (s : EditorState) : Reachable s → Reachable (moveRight s)
  | moveUp (s : EditorState) : Reachable s → Reachable (moveUp s)
  | moveDown (s : EditorState) : Reachable s → Reachable (moveDown s)
  | moveHome (s : EditorState) : Reachable s → Reachable (moveHome s)
  | moveEnd (s : EditorState) : Reachable s → Reachable (moveEnd s)
  | setCursor (s : EditorState) (l c : Int) (hl : 0 ≤ l) (hc : 0 ≤ c) :
      Reachable s → Reachable (cursorSetState s l c)
  | setLineLimit (s : EditorState) (v : Nat) (hv : 0 < v) :
      Reachable s → Reachable (lineLimitSetState s v)
  | clear (s : EditorState) : Reachable s → Reachable (textDelOp s)

/-- Shape invariant of the output of `chunks`: a non-empty list of display
lines in which every line but the last has length exactly `limit` and the
last has length at most `limit`. -/
inductive Chunked (limit : Nat) : List (List Char) → Prop where
  | single (s : List Char) (h : s.length ≤ limit) : Chunked limit [s]
  | cons (s : List Char) (g : List (List Char)) (h : s.length = limit)
      (rest : Chunked limit g) : Chunked limit (s :: g)

theorem Chunked.ne_nil {limit : Nat} {g : List (List Char)} (h : Chunked limit g) : g ≠ [] := by
  cases h <;> simp

theorem Chunked.length_pos {limit : Nat} {g : List (List Char)} (h : Chunked limit g) :
    0 < g.length := by
  cases h <;> simp

theorem chunked_chunks (limit : Nat) (hl : 0 < limit) (s : List Char) :
    Chunked limit (chunks limit s) := by
  rw [chunks]
  split
  · exact Chunked.cons _ _ (by rename_i h; simp [List.length_take]; omega)
      (chunked_chunks limit hl (s.drop limit))
  · exact Chunked.single _ (by omega)
termination_by s.length
decreasing_by
  simp only [List.length_drop]
  rename_i h
  omega

theorem chunks_flatten (limit : Nat) (s : List Char) : (chunks limit s).flatten = s := by
  rw [chunks]
  split
  · simp [chunks_flatten limit (s.drop limit)]
  · simp
termination_by s.length
decreasing_by
  simp only [List.length_drop]
  rename_i h
  omega

theorem chunks_groupLen (limit : Nat) (s : List Char) : groupLen (chunks limit s) = s.length := by
  have h := chunks_flatten limit s
  have : (chunks limit s).flatten.length = s.length := by rw [h]
  simpa [groupLen, List.length_flatten] using this

/-- Specification-side formulation of the greedy chunking: the `i`-th display
line is the slice `s[i*limit : (i+1)*limit]`, and there are
`max 1 ⌈len(s)/limit⌉` of them, so an empty logical line still yields one
(empty) display line while a line whose length is an exact positive multiple
of `limit` gets no extra empty trailing display line. -/
def refChunks (limit : Nat) (s : List Char) : List (List Char) :=
  (List.range (max 1 ((s.length + limit - 1) / limit))).map
    (fun i => (s.drop (i * limit)).take limit)

theorem chunks_eq_refChunks (limit : Nat) (hl : 0 < limit) (s : List Char) :
    chunks limit s = refChunks limit s := by
  rw [chunks]
  split
  · rename_i h
    have hs : limit < s.length := h.1
    have hrec := chunks_eq_refChunks limit hl (s.drop limit)
    rw [hrec]
    unfold refChunks
    have hdroplen : (s.drop limit).length = s.length - limit := by simp
    have hq : s.length + limit - 1 = (s.length - limit + limit - 1) + limit := by omega
    have hcount : max 1 ((s.length + limit - 1) / limit)
        = max 1 (((s.drop limit).length + limit - 1) / limit) + 1 := by
      rw [hdroplen, hq, Nat.add_div_right _ hl]
      have h1 : 1 ≤ (s.length - limit + limit - 1) / limit := by
        apply Nat.le_div_iff_mul_le hl |>.2
        omega
      omega
    rw [hcount, List.range_succ_eq_map]
    simp only [List.map_cons, List.map_map, Nat.zero_mul, List.drop_zero]
    congr 1
    apply List.map_congr_left
    intro i _
    simp only [Function.comp_apply]
    rw [List.drop_drop, Nat.succ_mul, Nat.add_comm]
  · rename_i h
    unfold refChunks
    have hle : s.length ≤ limit := by
      rcases Nat.lt_or_ge limit s.length with h1 | h1
      · exact absurd ⟨h1, hl⟩ h
      · exact h1
    have hqlt : (s.length + limit - 1) / limit < 2 := by
      rw [Nat.div_lt_iff_lt_mul hl]
      omega
    have hmax : max 1 ((s.length + limit - 1) / limit) = 1 := by omega
    rw [hmax]
    have h1 : List.range 1 = [0] := rfl
    rw [h1]
    simp only [List.map_cons, List.map_nil, Nat.zero_mul, List.drop_zero]
    rw [List.take_of_length_le hle]
termination_by s.length
decreasing_by
  simp only [List.length_drop]
  rename_i h
  omega

theorem displayLines_eq (limit : Nat) (hl : 0 < limit) (text : List Char) :
    displayLines limit text = (text.splitOn '\n').map (refChunks limit) := by
  unfold displayLines
  exact List.map_congr_left (fun raw _ => chunks_eq_refChunks limit hl raw)

theorem length_intercalate_single (x : Char) :
    ∀ l : List (List Char), l ≠ [] →
      (List.intercalate [x] l).length + 1 = (l.map List.length).sum + l.length := by
  intro l
  induction l with
  | nil => intro h; exact absurd rfl h
  | cons a t ih =>
    intro _
    cases t with
    | nil => simp [List.intercalate]
    | cons b t' =>
      have hne : (b :: t') ≠ ([] : List (List Char)) := by simp
      have ih' := ih hne
      unfold List.intercalate at ih' ⊢
      rw [List.intersperse_cons_cons]
      simp only [List.flatten_cons, List.length_append, List.map_cons, List.sum_cons,
        List.length_cons, List.length_nil] at ih' ⊢
      omega

theorem sum_splitOn_length (x : Char) (text : List Char) :
    ((text.splitOn x).map List.length).sum + (text.splitOn x).length = text.length + 1 := by
  have hne : text.splitOn x ≠ [] := List.splitOnP_ne_nil _ text
  have h := length_intercalate_single x (text.splitOn x) hne
  rw [List.intercalate_splitOn] at h
  omega

/-- Total length bookkeeping of the wrap partition: display-line lengths plus
one newline separator per logical line add up to `len(text) + 1`. -/
theorem totalLen_displayLines (limit : Nat) (text : List Char) :
    ((displayLines limit text).map groupLen).sum + (displayLines limit text).length
      = text.length + 1 := by
  unfold displayLines
  rw [List.map_map]
  have hmap : (text.splitOn '\n').map (groupLen ∘ chunks limit)
      = (text.splitOn '\n').map List.length :=
    List.map_congr_left (fun raw _ => chunks_groupLen limit raw)
  rw [hmap, List.length_map]
  exact sum_splitOn_length '\n' text

theorem sum_logicLines_length (limit : Nat) (text : List Char) :
    ((logicLines limit text).map List.length).sum
      = ((displayLines limit text).map groupLen).sum := by
  unfold logicLines groupLen
  rw [List.map_flatten, List.sum_flatten, List.map_map]
  rfl

/-- The number of display lines is positive and the partition is non-empty. -/
theorem displayLines_ne_nil (limit : Nat) (text : List Char) :
    displayLines limit text ≠ [] := by
  unfold displayLines
  intro h
  have := List.splitOnP_ne_nil (fun c => c == '\n') text
  simp only [List.map_eq_nil_iff] at h
  exact this h

@[simp] theorem groupLen_nil : groupLen [] = 0 := rfl

@[simp] theorem groupLen_cons (s : List Char) (g : List (List Char)) :
    groupLen (s :: g) = s.length + groupLen g := by
  simp [groupLen]

theorem getLastD_irrel {α : Type} : ∀ {l : List α}, l ≠ [] → ∀ (d₁ d₂ : α),
    l.getLastD d₁ = l.getLastD d₂ := by
  intro l hl d₁ d₂
  cases l with
  | nil => exact absurd rfl hl
  | cons a t =>
    cases t with
    | nil => rfl
    | cons b t' =>
      rw [List.getLastD_cons d₁ a (b :: t'), List.getLastD_cons d₂ a (b :: t')]

theorem chunked_take_groupLen {limit : Nat} {g : List (List Char)} (h : Chunked limit g) :
    ∀ i : Nat, i < g.length → groupLen (g.take i) = i * limit := by
  induction h with
  | single s hs =>
    intro i hi
    have hi0 : i = 0 := by simpa using hi
    subst hi0
    simp
  | cons s g' hs rest ih =>
    intro i hi
    cases i with
    | zero => simp
    | succ i' =>
      have hi' : i' < g'.length := by simpa using hi
      simp only [List.take_succ_cons, groupLen_cons]
      rw [ih i' hi', hs, Nat.succ_mul]
      omega

theorem chunked_groupLen_eq {limit : Nat} {g : List (List Char)} (h : Chunked limit g) :
    groupLen g = (g.length - 1) * limit + (g.getLastD []).length := by
  induction h with
  | single s hs => simp
  | cons s g' hs rest ih =>
    have hne := rest.ne_nil
    have hpos := rest.length_pos
    have hlast : (s :: g').getLastD [] = g'.getLastD [] := by
      rw [List.getLastD_cons]
      exact getLastD_irrel hne s []
    rw [groupLen_cons, hlast, ih, hs]
    have h1 : (s :: g').length - 1 = g'.length := by simp
    rw [h1]
    cases g' with
    | nil => exact absurd rfl hne
    | cons b t =>
      simp only [List.length_cons, Nat.add_sub_cancel]
      rw [Nat.succ_mul]
      omega

theorem chunked_last_le {limit : Nat} {g : List (List Char)} (h : Chunked limit g) :
    (g.getLastD []).length ≤ limit := by
  induction h with
  | single s hs => simpa using hs
  | cons s g' hs rest ih =>
    have hne := rest.ne_nil
    rw [List.getLastD_cons, getLastD_irrel hne s []]
    exact ih

/-- Falling through the inner loop of `_absolute_to_wrapped_index`: when the
(clamped) index lies strictly past all display lines of the logical line, every
display line is subtracted and the wrapped-line counter advances by the number
of display lines. -/
theorem a2wGroup_fall {limit : Nat} {g : List (List Char)} (h : Chunked limit g) :
    ∀ wl a : Int, (groupLen g : Int) < a →
      a2wGroup limit wl a g = Sum.inr (wl + g.length, a - groupLen g) := by
  induction h with
  | single s hs =>
    intro wl a ha
    simp only [groupLen_cons, groupLen_nil] at ha
    simp only [a2wGroup]
    rw [if_neg (by push_cast at ha ⊢; omega)]
    simp only [a2wGroup, Sum.inr.injEq, Prod.mk.injEq, List.length_cons, List.length_nil,
      groupLen_cons, groupLen_nil]
    push_cast
    omega
  | cons s g' hs rest ih =>
    intro wl a ha
    simp only [groupLen_cons] at ha
    simp only [a2wGroup]
    rw [if_neg (by push_cast at ha ⊢; have := rest.length_pos; omega)]
    · rw [ih (wl + 1) (a - (s.length : Int)) (by push_cast at ha ⊢; omega)]
      simp only [Sum.inr.injEq, Prod.mk.injEq, List.length_cons, groupLen_cons]
      push_cast
      omega

/-- Returning from the inner loop of `_absolute_to_wrapped_index`: when the
(clamped) index lies inside the logical line (the boundary position after the
last display line included), the loop returns a wrapped cursor `(wl + i, c)`
with `a = i * limit + c`, `c ≤ limit`, `i` a valid display-line index of this
logical line, and the skipped display lines measuring exactly `i * limit`
characters. -/
theorem a2wGroup_match {limit : Nat} (hl : 0 < limit) {g : List (List Char)}
    (h : Chunked limit g) :
    ∀ wl a : Int, 0 ≤ a → a ≤ (groupLen g : Int) →
      ∃ i c : Nat, a2wGroup limit wl a g = Sum.inl (wl + (i : Int), (c : Int)) ∧
        i < g.length ∧ c ≤ limit ∧ a = ((i * limit + c : Nat) : Int) ∧
        groupLen (g.take i) = i * limit := by
  induction h with
  | single s hs =>
    intro wl a ha0 ha1
    simp only [groupLen_cons, groupLen_nil] at ha1
    refine ⟨0, a.toNat, ?_, by simp, by push_cast at ha1; omega, by push_cast; omega, by simp⟩
    simp only [a2wGroup]
    rw [if_pos (by push_cast at ha1 ⊢; omega)]
    simp only [if_true, Sum.inl.injEq, Prod.mk.injEq]
    push_cast
    omega
  | cons s g' hs rest ih =>
    intro wl a ha0 ha1
    simp only [groupLen_cons] at ha1
    have hgne := rest.ne_nil
    have hgpos := rest.length_pos
    by_cases hin : a ≤ (s.length : Int)
    · rcases eq_or_lt_of_le hin with heq | hlt
      · -- `a` sits exactly on the wrap boundary: `divmod` carries into `i = 1`
        refine ⟨1, 0, ?_, by simpa using hgpos, by omega, ?_, by simp [hs]⟩
        · simp only [a2wGroup]
          rw [if_pos hin, if_neg hgne]
          have hlim : ((limit : Nat) : Int) ≠ 0 := by exact_mod_cast hl.ne'
          rw [heq, hs, Int.ediv_self hlim, Int.emod_self]
          simp
        · rw [heq, hs]
          push_cast
          ring
      · -- `a` lies strictly inside this (exactly full) display line
        have hlt' : a < (limit : Int) := by rw [hs] at hlt; exact_mod_cast hlt
        refine ⟨0, a.toNat, ?_, by simp, by omega, by push_cast; omega, by simp⟩
        simp only [a2wGroup]
        rw [if_pos hin, if_neg hgne]
        rw [Int.ediv_eq_zero_of_lt ha0 hlt', Int.emod_eq_of_lt ha0 hlt']
        simp only [Sum.inl.injEq, Prod.mk.injEq]
        push_cast
        omega
    · -- fall through this display line and recurse
      push_neg at hin
      obtain ⟨i', c, heq, hi, hc, hac, htake⟩ :=
        ih (wl + 1) (a - (s.length : Int)) (by omega) (by omega)
      refine ⟨i' + 1, c, ?_, by simpa using hi, hc, ?_, ?_⟩
      · simp only [a2wGroup]
        rw [if_neg (by omega), heq]
        simp only [Sum.inl.injEq, Prod.mk.injEq]
        constructor
        · push_cast
          ring
        · trivial
      · rw [hs] at hac
        push_cast at hac ⊢
        have hmul : ((i' : Int) + 1) * (limit : Int) = (i' : Int) * limit + limit := by ring
        rw [hmul]
        linarith
      · simp only [List.take_succ_cons, groupLen_cons]
        rw [htake, hs, Nat.succ_mul]
        omega

/-- The wrapped-line accumulator of the inner conversion loop is additive. -/
theorem a2wGroup_shift (limit : Nat) (d : Int) :
    ∀ (g : List (List Char)) (wl a : Int),
      a2wGroup limit (wl + d) a g =
        Sum.map (fun p : Int × Int => (p.1 + d, p.2)) (fun p : Int × Int => (p.1 + d, p.2))
          (a2wGroup limit wl a g) := by
  intro g
  induction g with
  | nil => intro wl a; simp [a2wGroup]
  | cons dl rest ih =>
    intro wl a
    simp only [a2wGroup]
    by_cases hle : a ≤ (dl.length : Int)
    · rw [if_pos hle, if_pos hle]
      by_cases hr : rest = []
      · rw [if_pos hr, if_pos hr]; rfl
      · rw [if_neg hr, if_neg hr]
        simp only [Sum.map_inl, Sum.inl.injEq, Prod.mk.injEq]
        constructor
        · ring
        · trivial
    · rw [if_neg hle, if_neg hle]
      rw [show wl + d + 1 = wl + 1 + d by ring]
      exact ih (wl + 1) (a - (dl.length : Int))

/-- The wrapped-line accumulator of the outer conversion loop is additive. -/
theorem a2wGroups_shift (limit fb : Nat) (d : Int) :
    ∀ (gs : List (List (List Char))) (wl a : Int),
      a2wGroups limit fb (wl + d) a gs =
        ((a2wGroups limit fb wl a gs).1 + d, (a2wGroups limit fb wl a gs).2) := by
  intro gs
  induction gs with
  | nil =>
    intro wl a
    simp only [a2wGroups, Prod.mk.injEq]
    exact ⟨by ring, trivial⟩
  | cons g gs' ih =>
    intro wl a
    simp only [a2wGroups]
    rw [a2wGroup_shift limit d g wl a]
    cases hres : a2wGroup limit wl a g with
    | inl r => simp
    | inr r =>
      obtain ⟨wl', a'⟩ := r
      simpa using ih wl' (a' - 1)

/-- The absolute-index accumulator of `_wrapped_to_absolute_index` is additive. -/
theorem w2aGroups_shift (d : Int) :
    ∀ (gs : List (List (List Char))) (rem acc : Int),
      w2aGroups rem (acc + d) gs = w2aGroups rem acc gs + d := by
  intro gs
  induction gs with
  | nil => intro rem acc; simp [w2aGroups]
  | cons g gs' ih =>
    intro rem acc
    simp only [w2aGroups]
    by_cases hc : (g.length : Int) ≤ rem
    · rw [if_pos hc, if_pos hc]
      rw [show acc + d + (groupLen g : Int) + 1 = (acc + (groupLen g : Int) + 1) + d by ring]
      exact ih _ _
    · rw [if_neg hc, if_neg hc]; ring

/-- Character count of a whole wrap partition, counting one separator between
adjacent logical lines: for the partition of `text` this equals `len(text)`. -/
def totalLenI (gs : List (List (List Char))) : Int :=
  ((gs.map groupLen).sum : Int) + gs.length - 1

theorem totalLenI_single (g : List (List Char)) : totalLenI [g] = (groupLen g : Int) := by
  simp [totalLenI]

theorem totalLenI_cons (g : List (List Char)) (gs : List (List (List Char))) (_h : gs ≠ []) :
    totalLenI (g :: gs) = (groupLen g : Int) + 1 + totalLenI gs := by
  unfold totalLenI
  simp only [List.map_cons, List.sum_cons, List.length_cons]
  push_cast
  ring

theorem totalLenI_nonneg (gs : List (List (List Char))) (h : gs ≠ []) : 0 ≤ totalLenI gs := by
  unfold totalLenI
  have h1 : 0 < gs.length := List.length_pos.2 h
  have h2 : (0 : Int) ≤ ((gs.map groupLen).sum : Int) := by positivity
  omega

theorem w2aGroups_zero {limit : Nat} (gs : List (List (List Char))) (hne : gs ≠ [])
    (hch : ∀ g ∈ gs, Chunked limit g) : w2aGroups 0 0 gs = 0 := by
  cases gs with
  | nil => exact absurd rfl hne
  | cons g t =>
    have hpos := (hch g (by simp)).length_pos
    simp only [w2aGroups]
    rw [if_neg (by exact_mod_cast by omega)]
    simp [pySliceTo]

/-- Heart of the round-trip property: on a non-empty wrap partition made of
greedy chunkings, `_absolute_to_wrapped_index`'s loops turn a clamped absolute
index `a` into a pair `(d, c)` with `0 ≤ c ≤ limit`, and
`_wrapped_to_absolute_index`'s loop turns `d` back into `a - c` (for `d = 0`
the fast path has `c = a` directly). -/
theorem a2w_w2a_loop (limit : Nat) (hl : 0 < limit) (fb : Nat) :
    ∀ gs : List (List (List Char)), gs ≠ [] → (∀ g ∈ gs, Chunked limit g) →
      ∀ a : Int, 0 ≤ a → a ≤ totalLenI gs →
        ∃ d c : Int, a2wGroups limit fb 0 a gs = (d, c) ∧ 0 ≤ d ∧ 0 ≤ c ∧ c ≤ (limit : Int) ∧
          (d = 0 → c = a) ∧ (0 < d → w2aGroups d 0 gs = a - c) := by
  intro gs
  induction gs with
  | nil => intro h; exact absurd rfl h
  | cons g gs' ih =>
    intro _ hch a ha0 ha1
    have hg : Chunked limit g := hch g (by simp)
    have hglen : (0 : Int) < g.length := by exact_mod_cast hg.length_pos
    by_cases hin : a ≤ (groupLen g : Int)
    · obtain ⟨i, c, heq, hi, hc, hac, htake⟩ := a2wGroup_match hl hg 0 a ha0 hin
      refine ⟨(i : Int), (c : Int), ?_, Int.natCast_nonneg i, Int.natCast_nonneg c,
        by exact_mod_cast hc, ?_, ?_⟩
      · simp only [a2wGroups, heq]
        norm_num
      · intro hd0
        have hi0 : i = 0 := by exact_mod_cast hd0
        subst hi0
        rw [hac]
        push_cast
        ring
      · intro hdpos
        simp only [w2aGroups]
        rw [if_neg (by exact_mod_cast by omega)]
        have hslice : pySliceTo (i : Int) g = g.take i := by
          simp [pySliceTo]
        rw [hslice, htake, hac]
        push_cast
        ring
    · push_neg at hin
      have hgs' : gs' ≠ [] := by
        intro hnil
        subst hnil
        rw [totalLenI_single] at ha1
        omega
      have hfall := a2wGroup_fall hg 0 a hin
      have ha0' : 0 ≤ a - (groupLen g : Int) - 1 := by omega
      have ha1' : a - (groupLen g : Int) - 1 ≤ totalLenI gs' := by
        rw [totalLenI_cons g gs' hgs'] at ha1
        omega
      obtain ⟨d', c, heq', hd0', hc0, hcl, hzero, hpos⟩ :=
        ih hgs' (fun x hx => hch x (by simp [hx])) _ ha0' ha1'
      refine ⟨(g.length : Int) + d', c, ?_, by omega, hc0, hcl, ?_, ?_⟩
      · simp only [a2wGroups, hfall]
        have hshift := a2wGroups_shift limit fb (g.length : Int) gs' 0 (a - (groupLen g : Int) - 1)
        rw [heq'] at hshift
        simpa [Int.add_comm] using hshift
      · intro h0
        omega
      · intro _
        simp only [w2aGroups]
        rw [if_pos (by omega)]
        rw [show (g.length : Int) + d' - (g.length : Int) = d' by ring]
        rw [show (0 : Int) + (groupLen g : Int) + 1 = 0 + ((groupLen g : Int) + 1) by ring]
        rw [w2aGroups_shift ((groupLen g : Int) + 1) gs' d' 0]
        rcases lt_or_eq_of_le hd0' with hdpos' | hdzero
        · rw [hpos hdpos']
          ring
        · rw [← hdzero]
          rw [w2aGroups_zero gs' hgs' (fun x hx => hch x (by simp [hx]))]
          have := hzero hdzero.symm
          omega

theorem chunks_nil (limit : Nat) : chunks limit [] = [[]] := by
  rw [chunks]
  simp

theorem chunked_displayLines (limit : Nat) (hl : 0 < limit) (text : List Char) :
    ∀ g ∈ displayLines limit text, Chunked limit g := by
  intro g hg
  unfold displayLines at hg
  obtain ⟨raw, _, rfl⟩ := List.mem_map.1 hg
  exact chunked_chunks limit hl raw

theorem totalLenI_displayLines (limit : Nat) (text : List Char) :
    totalLenI (displayLines limit text) = (text.length : Int) := by
  unfold totalLenI
  have h := totalLen_displayLines limit text
  have hpos : 0 < (displayLines limit text).length :=
    List.length_pos.2 (displayLines_ne_nil limit text)
  omega

/-- C1: for every text, every positive line limit, and every absolute offset
`o` with `0 ≤ o ≤ len(text)`, `_wrapped_to_absolute_index` applied to the
wrapped cursor produced by `_absolute_to_wrapped_index o` returns exactly
`o`. -/
theorem C1_roundtrip (limit : Nat) (text : List Char) (o : Nat)
    (hl : 0 < limit) (ho : o ≤ text.length) :
    wrappedToAbsoluteIndex limit text
      (absoluteToWrappedIndex limit text (o : Int)).1
      (absoluteToWrappedIndex limit text (o : Int)).2 = (o : Int) := by
  by_cases htext : text = []
  · subst htext
    have ho0 : o = 0 := by simpa using ho
    subst ho0
    have hd : displayLines limit [] = [[[]]] := by
      unfold displayLines
      rw [List.splitOn_nil, List.map_cons, List.map_nil, chunks_nil]
    simp only [absoluteToWrappedIndex, hd]
    norm_num
    simp [a2wGroups, a2wGroup, wrappedToAbsoluteIndex]
  · have hne := displayLines_ne_nil limit text
    have hch := chunked_displayLines limit hl text
    have htot := totalLenI_displayLines limit text
    have hlenpos : 0 < text.length := List.length_pos.2 htext
    obtain ⟨d, c, heq, hd0, hc0, hcl, hzero, hpos⟩ :=
      a2w_w2a_loop limit hl (((displayLines limit text).getLastD []).getLastD []).length
        (displayLines limit text) hne hch (o : Int) (Int.natCast_nonneg o)
        (by rw [htot]; exact_mod_cast ho)
    have hclamp : max 0 (min (o : Int) (text.length : Int)) = (o : Int) := by
      have : (o : Int) ≤ (text.length : Int) := by exact_mod_cast ho
      omega
    have habs : absoluteToWrappedIndex limit text (o : Int) = (d, c) := by
      unfold absoluteToWrappedIndex
      rw [hclamp, heq]
    rw [habs]
    unfold wrappedToAbsoluteIndex
    rw [if_neg htext]
    have hdiv : c / ((limit : Int) + 1) = 0 :=
      Int.ediv_eq_zero_of_lt hc0 (by omega)
    have hmod : c % ((limit : Int) + 1) = c :=
      Int.emod_eq_of_lt hc0 (by omega)
    simp only [hdiv, hmod, add_zero]
    by_cases hdz : d = 0
    · rw [if_pos hdz]
      exact hzero hdz
    · rw [if_neg hdz]
      rw [hpos (by omega)]
      have : (o : Int) - c + c = (o : Int) := by ring
      rw [this]
      have : (o : Int) ≤ (text.length : Int) := by exact_mod_cast ho
      omega

theorem C1_roundtrip_witness :
    wrappedToAbsoluteIndex 5 "Hello\nWorld!".toList
      (absoluteToWrappedIndex 5 "Hello\nWorld!".toList (7 : Int)).1
      (absoluteToWrappedIndex 5 "Hello\nWorld!".toList (7 : Int)).2 = (7 : Int) :=
  C1_roundtrip 5 "Hello\nWorld!".toList 7 (by decide) (by decide)

/-- C4: in every reachable `TextEditor` state, `len(text)` equals the sum of
the lengths of all display lines plus the number of logical lines minus 1. -/
theorem C4_length_invariant (s : EditorState) (_hs : Reachable s) :
    (s.text.length : Int) =
      (((logicLines s.lineLimit s.text).map List.length).sum : Int)
      + ((displayLines s.lineLimit s.text).length : Int) - 1 := by
  have h1 := sum_logicLines_length s.lineLimit s.text
  have h2 := totalLen_displayLines s.lineLimit s.text
  rw [h1]
  omega

/-- A sample state reached by constructing `TextEditor(5)` and inserting
`"Hello\nWorld!"`. -/
def sampleState : EditorState := (insertOp (construct0 5) "Hello\nWorld!".toList).1

theorem sampleState_reachable : Reachable sampleState :=
  Reachable.insert (construct0 5) "Hello\nWorld!".toList
    (Reachable.construct 5 (by decide))

theorem C4_length_invariant_witness :
    (sampleState.text.length : Int) =
      (((logicLines sampleState.lineLimit sampleState.text).map List.length).sum : Int)
      + ((displayLines sampleState.lineLimit sampleState.text).length : Int) - 1 :=
  C4_length_invariant sampleState sampleState_reachable

/-- C2: `_wrap_lines` computes exactly the reference partition (split on the
newline character, then greedy fixed-size chunking as in `refChunks`), every
logical line yields at least one display line, an empty logical line yields
exactly one empty display line, and a logical line whose length is a positive
exact multiple `k * limit` yields exactly `k` display lines — no extra empty
trailing one. -/
theorem C2_wrap_partition (limit : Nat) (text : List Char) (hl : 0 < limit) :
    displayLines limit text = (text.splitOn '\n').map (refChunks limit)
    ∧ (∀ g ∈ displayLines limit text, g ≠ [])
    ∧ chunks limit [] = [[]]
    ∧ (∀ s : List Char, (chunks limit s).flatten = s)
    ∧ (∀ k : Nat, 0 < k → ∀ s : List Char, s.length = k * limit →
        (chunks limit s).length = k) := by
  refine ⟨displayLines_eq limit hl text, ?_, chunks_nil limit, chunks_flatten limit, ?_⟩
  · intro g hg
    exact (chunked_displayLines limit hl text g hg).ne_nil
  · intro k hk s hs
    rw [chunks_eq_refChunks limit hl s]
    unfold refChunks
    rw [List.length_map, List.length_range, hs]
    have h1 : k * limit + limit - 1 = (limit - 1) + limit * k := by
      rw [Nat.mul_comm]
      omega
    rw [h1, Nat.add_mul_div_left _ _ hl, Nat.div_eq_of_lt (by omega)]
    omega

theorem C2_wrap_partition_witness :
    displayLines 5 "Hello World!".toList
        = ("Hello World!".toList.splitOn '\n').map (refChunks 5)
    ∧ (∀ g ∈ displayLines 5 "Hello World!".toList, g ≠ [])
    ∧ chunks 5 [] = [[]]
    ∧ (∀ s : List Char, (chunks 5 s).flatten = s)
    ∧ (∀ k : Nat, 0 < k → ∀ s : List Char, s.length = k * 5 →
        (chunks 5 s).length = k) :=
  C2_wrap_partition 5 "Hello World!".toList (by decide)

/-- `get_sub_lines` of `TextEditor` returns `self._display_lines`, the grouped
partition. -/
def getSubLines (s : EditorState) : List (List (List Char)) :=
  displayLines s.lineLimit s.text

/-- `get_lines` of `TextEditor` returns `self._logic_lines`, the flat list. -/
def getLines (s : EditorState) : List (List Char) :=
  logicLines s.lineLimit s.text

/-! The `TextEditorFancy` subclass overrides `_wrap_lines` with
`textwrap.wrap(raw_line, limit, break_on_hyphens=True, break_long_words=True,
replace_whitespace=False, drop_whitespace=False, expand_tabs=False)` and swaps
the two caches: `self._logic_lines` becomes the grouped structure and
`self._display_lines` the flattened one.  The next few definitions model the
standard-library call with those flags: the line is split into chunks at
whitespace boundaries and after hyphens, chunks are packed greedily into lines
of width `limit`, and a chunk longer than the remaining width of a fresh line
is broken hard at the width. -/

/-- Chunking step of the `textwrap` model: maximal runs of whitespace or
non-whitespace characters, additionally cut after every hyphen. -/
def tokenize : List Char → List (List Char)
  | [] => []
  | c :: cs =>
    match tokenize cs with
    | [] => [[c]]
    | t :: ts =>
      if c ≠ '-' ∧ t.head?.any (fun d => d.isWhitespace = c.isWhitespace) then
        (c :: t) :: ts
      else
        [c] :: t :: ts

/-- Build one output line of the `textwrap` model: pack whole chunks while they
fit into `w`, then, if the next chunk alone exceeds the full width, break it
hard at the remaining space.  Returns the line and the remaining chunks. -/
def buildLine (w : Nat) : Nat → List (List Char) → List Char × List (List Char)
  | _, [] => ([], [])
  | curLen, t :: ts =>
    if curLen + t.length ≤ w then
      let r := buildLine w (curLen + t.length) ts
      (t ++ r.1, r.2)
    else if w < t.length then
      (t.take (w - curLen), (t.drop (w - curLen)) :: ts)
    else
      ([], t :: ts)

/-- Outer loop of the `textwrap` model, producing one line per round.  The
fuel argument only bounds the recursion; `s.length + 1` rounds always suffice
for a positive width because every round consumes at least one character. -/
def wrapFill (w : Nat) : Nat → List (List Char) → List (List Char)
  | _, [] => []
  | 0, ts => [ts.flatten]
  | fuel + 1, ts =>
    let r := buildLine w 0 ts
    r.1 :: wrapFill w fuel r.2

/-- Model of `textwrap.wrap(s, limit, break_on_hyphens=True,
break_long_words=True, replace_whitespace=False, drop_whitespace=False,
expand_tabs=False)`. -/
def textwrapWrap (limit : Nat) (s : List Char) : List (List Char) :=
  wrapFill limit (s.length + 1) (tokenize s)

/-- `TextEditorFancy._wrap_lines`, grouped structure: one entry per raw line;
`wrap` returns `[]` for an empty line, which `line or [""]` replaces by a
single empty display line.  Stored in `self._logic_lines` (the subclass swaps
the names). -/
def fancyLogicLines (limit : Nat) (text : List Char) : List (List (List Char)) :=
  (text.splitOn '\n').map
    (fun raw => let w := textwrapWrap limit raw; if w = [] then [[]] else w)

/-- `TextEditorFancy`'s `self._display_lines`: the flattened list. -/
def fancyDisplayLines (limit : Nat) (text : List Char) : List (List Char) :=
  (fancyLogicLines limit text).flatten

/-- `get_sub_lines` as inherited by `TextEditorFancy` returns
`self._display_lines`, which the subclass stores as the flat list. -/
def fancyGetSubLines (limit : Nat) (text : List Char) : List (List Char) :=
  fancyDisplayLines limit text

/-- C3: on the state with `line_limit = 2` and `text = "abcd\nef"`, the base
`TextEditor.get_sub_lines` returns the display lines grouped by logical line
(one inner list per logical line, concatenating to the line content), while
`TextEditorFancy.get_sub_lines` returns the flat list of three display-line
strings — not a two-element sequence of groups as the claim requires. -/
theorem C3_grouping_bug :
    getSubLines ⟨2, "abcd\nef".toList, 0⟩
        = [[['a', 'b'], ['c', 'd']], [['e', 'f']]]
    ∧ (getSubLines ⟨2, "abcd\nef".toList, 0⟩).map List.flatten
        = "abcd\nef".toList.splitOn '\n'
    ∧ ("abcd\nef".toList.splitOn '\n').length = 2
    ∧ fancyGetSubLines 2 "abcd\nef".toList = [['a', 'b'], ['c', 'd'], ['e', 'f']]
    ∧ (fancyGetSubLines 2 "abcd\nef".toList).length = 3 := by
  have hbase : getSubLines ⟨2, "abcd\nef".toList, 0⟩
      = [[['a', 'b'], ['c', 'd']], [['e', 'f']]] := by
    show displayLines 2 "abcd\nef".toList = _
    rw [displayLines_eq 2 (by decide)]
    decide
  refine ⟨hbase, ?_, by decide, by decide, by decide⟩
  rw [hbase]
  decide

/-! Model of the Python runtime values that reach the validators.  Python's
`bool` is a subclass of `int`, so `isinstance(True, int)` holds; the editor's
validators therefore test `isinstance(x, bool)` separately to reject
booleans. -/

inductive PyVal where
  | int (n : Int)
  | bool (b : Bool)
  | float
  | str (s : List Char)
  | pyNone
  | tuple (xs : List PyVal)
  | list (xs : List PyVal)

/-- `isinstance(v, int)` — true for `bool` as well, since `bool ⊆ int`. -/
def isInstInt : PyVal → Bool
  | PyVal.int _ => true
  | PyVal.bool _ => true
  | _ => false

/-- `isinstance(v, bool)`. -/
def isInstBool : PyVal → Bool
  | PyVal.bool _ => true
  | _ => false

/-- `isinstance(v, tuple | list)`. -/
def isInstTupleOrList : PyVal → Bool
  | PyVal.tuple _ => true
  | PyVal.list _ => true
  | _ => false

/-- The elements of a tuple or list value. -/
def pyElems : PyVal → List PyVal
  | PyVal.tuple xs => xs
  | PyVal.list xs => xs
  | _ => []

/-- Numeric value of an int-like Python value. -/
def pyToInt : PyVal → Int
  | PyVal.int n => n
  | PyVal.bool b => if b then 1 else 0
  | _ => 0

/-- `TextEditor.__validate_line_limit`: a `TypeError` for a non-int or a bool,
a `ValueError` for a non-positive int. -/
def validateLineLimit (v : PyVal) : Except PyError Unit :=
  if isInstInt v = false ∨ isInstBool v = true then Except.error PyError.typeError
  else if pyToInt v ≤ 0 then Except.error PyError.valueError
  else Except.ok ()

/-- `TextEditor.__validate_cursor`: type and shape checks of the assigned
cursor pair, rejecting booleans explicitly, then sign checks. -/
def validateCursor (pos : PyVal) : Except PyError Unit :=
  if isInstTupleOrList pos = false then Except.error PyError.typeError
  else if (pyElems pos).length ≠ 2 then Except.error PyError.valueError
  else if (pyElems pos).all isInstInt = false ∨ (pyElems pos).any isInstBool = true then
    Except.error PyError.typeError
  else if pyToInt ((pyElems pos).getD 0 PyVal.pyNone) < 0 then Except.error PyError.valueError
  else if pyToInt ((pyElems pos).getD 1 PyVal.pyNone) < 0 then Except.error PyError.valueError
  else Except.ok ()

/-- The `line_limit` property setter: validation, then the state update. -/
def lineLimitSetOp (s : EditorState) (v : PyVal) : Except PyError EditorState :=
  match validateLineLimit v with
  | Except.error e => Except.error e
  | Except.ok _ => Except.ok (lineLimitSetState s (pyToInt v).toNat)

/-- The `cursor` property setter including `__validate_cursor`. -/
def cursorSetOp (s : EditorState) (pos : PyVal) : Except PyError EditorState :=
  match validateCursor pos with
  | Except.error e => Except.error e
  | Except.ok _ =>
    Except.ok (cursorSetState s (pyToInt ((pyElems pos).getD 0 PyVal.pyNone))
      (pyToInt ((pyElems pos).getD 1 PyVal.pyNone)))

/-- `TextEditor.__init__(line_limit, text)`: validate the limit, start from an
empty buffer, then type-check `text` and insert it (raising on unsupported
characters). -/
def constructOp (limitV : PyVal) (textV : PyVal) : Except PyError EditorState :=
  match validateLineLimit limitV with
  | Except.error e => Except.error e
  | Except.ok _ =>
    let s : EditorState := ⟨(pyToInt limitV).toNat, [], 0⟩
    match textV with
    | PyVal.pyNone => Except.ok s
    | PyVal.str t =>
      match insertOp s t with
      | (s', none) => Except.ok s'
      | (_, some e) => Except.error e
    | _ => Except.error PyError.typeError

/-- C10: booleans are rejected with a `TypeError` everywhere an integer is
expected, even though Python's `bool` is a subclass of `int`: by the
constructor and the `line_limit` setter for the limit, and by the cursor
setter for either component of the assigned pair. -/
theorem C10_bool_rejected (b : Bool) (v : PyVal) (s : EditorState) :
    constructOp (PyVal.bool b) PyVal.pyNone = Except.error PyError.typeError
    ∧ lineLimitSetOp s (PyVal.bool b) = Except.error PyError.typeError
    ∧ cursorSetOp s (PyVal.tuple [PyVal.bool b, v]) = Except.error PyError.typeError
    ∧ cursorSetOp s (PyVal.tuple [v, PyVal.bool b]) = Except.error PyError.typeError := by
  refine ⟨rfl, rfl, ?_, ?_⟩
  · have hval : validateCursor (PyVal.tuple [PyVal.bool b, v])
        = Except.error PyError.typeError := by
      unfold validateCursor
      rw [if_neg (by simp [isInstTupleOrList]), if_neg (by simp [pyElems])]
      rw [if_pos (by right; simp [pyElems, List.any, isInstBool])]
    unfold cursorSetOp
    rw [hval]
  · have hval : validateCursor (PyVal.tuple [v, PyVal.bool b])
        = Except.error PyError.typeError := by
      unfold validateCursor
      rw [if_neg (by simp [isInstTupleOrList]), if_neg (by simp [pyElems])]
      rw [if_pos (by right; simp [pyElems, List.any, isInstBool])]
    unfold cursorSetOp
    rw [hval]

/-- C6: whenever `insert` raises `UnsupportedCharacterError`, the text, the
wrap partition and the absolute cursor are each exactly as they were before
the call. -/
theorem C6_insert_atomic (s : EditorState) (t : List Char) (e : PyError)
    (h : (insertOp s t).2 = some e) :
    (insertOp s t).1.text = s.text
    ∧ displayLines (insertOp s t).1.lineLimit (insertOp s t).1.text
        = displayLines s.lineLimit s.text
    ∧ (insertOp s t).1.absCursor = s.absCursor := by
  have hfst : (insertOp s t).1 = s := by
    unfold insertOp at h ⊢
    by_cases h0 : t.length = 0
    · rw [if_pos h0]
    · rw [if_neg h0] at h ⊢
      cases hf : firstUnsupported t with
      | some c => rfl
      | none => rw [hf] at h; simp at h
  rw [hfst]
  exact ⟨rfl, rfl, rfl⟩

theorem C6_insert_atomic_witness :
    (insertOp ⟨5, "Hello World!".toList, 3⟩ "\x07abc".toList).1.text
        = "Hello World!".toList
    ∧ displayLines (insertOp ⟨5, "Hello World!".toList, 3⟩ "\x07abc".toList).1.lineLimit
        (insertOp ⟨5, "Hello World!".toList, 3⟩ "\x07abc".toList).1.text
        = displayLines 5 "Hello World!".toList
    ∧ (insertOp ⟨5, "Hello World!".toList, 3⟩ "\x07abc".toList).1.absCursor = 3 :=
  C6_insert_atomic ⟨5, "Hello World!".toList, 3⟩ "\x07abc".toList
    (PyError.unsupportedChar '\x07') (by decide)

/-- C7 counterexample: for `s = "\r\a"` the first disallowed character in scan
order of `s` is CR (`"\r"`, at index 0), but `insert` reports BEL (`"\a"`),
because the reporting loop iterates over `UNSUPPORTED_CHARS` in list order,
not over `s`. -/
theorem C7_scan_order_counterexample :
    (insertOp ⟨5, [], 0⟩ "\r\x07".toList).2 = some (PyError.unsupportedChar '\x07')
    ∧ "\r\x07".toList.head? = some '\r'
    ∧ '\r' ∈ UNSUPPORTED_CHARS
    ∧ (PyError.unsupportedChar '\x07' : PyError) ≠ PyError.unsupportedChar '\r' := by
  decide

/-- C7 (amended): when the inserted string contains a disallowed character,
`insert` raises `UnsupportedCharacterError` carrying the first element of the
fixed list `UNSUPPORTED_CHARS = [BEL, BS, FF, CR, VT]` (in that list order)
that occurs anywhere in the string — not the first disallowed character in
left-to-right scan order of the string. -/
theorem C7_reported_char (s : EditorState) (t : List Char)
    (h : ∃ c ∈ UNSUPPORTED_CHARS, t.contains c = true) :
    (insertOp s t).2 = some (PyError.unsupportedChar
      (if t.contains '\x07' then '\x07'
       else if t.contains '\x08' then '\x08'
       else if t.contains '\x0c' then '\x0c'
       else if t.contains '\x0d' then '\x0d'
       else '\x0b')) := by
  obtain ⟨c, hc, hct⟩ := h
  have hlen : t.length ≠ 0 := by
    intro h0
    have ht : t = [] := List.length_eq_zero.1 h0
    subst ht
    simp at hct
  unfold insertOp
  rw [if_neg hlen]
  unfold firstUnsupported UNSUPPORTED_CHARS
  simp only [List.find?]
  fin_cases hc <;>
    by_cases h7 : t.contains '\x07' <;>
    by_cases h8 : t.contains '\x08' <;>
    by_cases hc' : t.contains '\x0c' <;>
    by_cases hd : t.contains '\x0d' <;>
    by_cases hb : t.contains '\x0b' <;>
    simp_all

theorem C7_reported_char_witness :
    (insertOp ⟨5, [], 0⟩ "\r\x07".toList).2 = some (PyError.unsupportedChar
      (if "\r\x07".toList.contains '\x07' then '\x07'
       else if "\r\x07".toList.contains '\x08' then '\x08'
       else if "\r\x07".toList.contains '\x0c' then '\x0c'
       else if "\r\x07".toList.contains '\x0d' then '\x0d'
       else '\x0b')) :=
  C7_reported_char ⟨5, [], 0⟩ "\r\x07".toList ⟨'\x0d', by decide, by decide⟩

theorem getLastD_append {α : Type} (d : α) :
    ∀ (l₁ l₂ : List α), l₂ ≠ [] → (l₁ ++ l₂).getLastD d = l₂.getLastD d := by
  intro l₁
  induction l₁ with
  | nil => intro l₂ h; rfl
  | cons a l₁ ih =>
    intro l₂ h
    have happ : l₁ ++ l₂ ≠ [] := by
      simp only [ne_eq, List.append_eq_nil]
      intro hc
      exact h hc.2
    rw [List.cons_append, List.getLastD_cons, getLastD_irrel happ a d, ih l₂ h]

theorem getLastD_mem {α : Type} (d : α) : ∀ (l : List α), l ≠ [] → l.getLastD d ∈ l := by
  intro l
  induction l with
  | nil => intro h; exact absurd rfl h
  | cons a t ih =>
    intro _
    cases t with
    | nil => simp
    | cons b t' =>
      rw [List.getLastD_cons, getLastD_irrel (by simp) a d]
      exact List.mem_cons_of_mem a (ih (by simp))

theorem flatten_getLastD {α : Type} (d : α) :
    ∀ (gs : List (List α)), gs ≠ [] → (∀ g ∈ gs, g ≠ []) →
      gs.flatten.getLastD d = (gs.getLastD []).getLastD d := by
  intro gs
  induction gs with
  | nil => intro h; exact absurd rfl h
  | cons g gs' ih =>
    intro _ hmem
    cases gs' with
    | nil => simp
    | cons g2 t =>
      have hne2 : (g2 :: t) ≠ ([] : List (List α)) := by simp
      have hflne : (g2 :: t).flatten ≠ [] := by
        have hg2 : g2 ≠ [] := hmem g2 (by simp)
        simp only [List.flatten_cons, ne_eq, List.append_eq_nil]
        intro hc
        exact hg2 hc.1
      rw [List.flatten_cons, getLastD_append d g ((g2 :: t).flatten) hflne,
        List.getLastD_cons, getLastD_irrel hne2 g [],
        ih hne2 (fun x hx => hmem x (by simp [hx]))]

theorem flatCount_pos {limit : Nat} :
    ∀ (gs : List (List (List Char))), gs ≠ [] → (∀ g ∈ gs, Chunked limit g) →
      0 < (gs.map List.length).sum := by
  intro gs hne hch
  cases gs with
  | nil => exact absurd rfl hne
  | cons g t =>
    have := (hch g (by simp)).length_pos
    simp only [List.map_cons, List.sum_cons]
    omega

/-- A wrap partition whose flattened length is 1 is a single one-chunk group,
so its total character count is the length of its unique display line. -/
theorem flatCount_one {limit : Nat} :
    ∀ (gs : List (List (List Char))), gs ≠ [] → (∀ g ∈ gs, Chunked limit g) →
      (gs.map List.length).sum = 1 →
      totalLenI gs = (((gs.getLastD []).getLastD []).length : Int) := by
  intro gs hne hch hsum
  cases gs with
  | nil => exact absurd rfl hne
  | cons g t =>
    cases t with
    | cons g2 t' =>
      have h1 := (hch g (by simp)).length_pos
      have h2 := (hch g2 (by simp)).length_pos
      simp only [List.map_cons, List.sum_cons] at hsum
      omega
    | nil =>
      have h1 := (hch g (by simp)).length_pos
      simp only [List.map_cons, List.map_nil, List.sum_cons, List.sum_nil] at hsum
      cases g with
      | nil => simp at h1
      | cons c g2 =>
        cases g2 with
        | cons c2 t2 => simp at hsum
        | nil =>
          rw [totalLenI_single]
          simp

/-- Inner loop of `_absolute_to_wrapped_index` at the very end of a logical
line: the index `groupLen g` (the boundary on the separator) resolves to the
last display line of the group at its full length. -/
theorem a2wGroup_end {limit : Nat} (hl : 0 < limit) {g : List (List Char)}
    (h : Chunked limit g) :
    ∀ wl : Int, a2wGroup limit wl ((groupLen g : Nat) : Int) g
      = Sum.inl (wl + ((g.length - 1 : Nat) : Int), ((g.getLastD []).length : Int)) := by
  induction h with
  | single s hs =>
    intro wl
    simp only [a2wGroup, groupLen_cons, groupLen_nil]
    rw [if_pos (by push_cast; omega)]
    simp
  | cons s g' hs rest ih =>
    intro wl
    have hgne := rest.ne_nil
    have hgpos := rest.length_pos
    have hlast : (s :: g').getLastD [] = g'.getLastD [] := by
      rw [List.getLastD_cons]
      exact getLastD_irrel hgne s []
    by_cases h0 : groupLen g' = 0
    · have hg1 : g' = [[]] := by
        cases rest with
        | single s' hs' =>
          have hs0 : s'.length = 0 := by simpa using h0
          rw [List.length_eq_zero.1 hs0]
        | cons s'' g'' hs'' rest'' =>
          rw [groupLen_cons, hs''] at h0
          omega
      subst hg1
      have hgl : ((groupLen (s :: [[]]) : Nat) : Int) = (limit : Int) := by simp [hs]
      rw [hgl]
      simp only [a2wGroup]
      rw [if_pos (by simp [hs])]
      rw [if_neg (by simp : ¬([[]] : List (List Char)) = [])]
      have hlim : ((limit : Nat) : Int) ≠ 0 := by exact_mod_cast hl.ne'
      rw [Int.ediv_self hlim, Int.emod_self]
      simp
    · simp only [a2wGroup]
      rw [if_neg (by rw [groupLen_cons, hs]; push_cast; omega)]
      rw [show ((groupLen (s :: g') : Nat) : Int) - (s.length : Int) = ((groupLen g' : Nat) : Int) by
        rw [groupLen_cons]; push_cast; ring]
      rw [ih (wl + 1), hlast]
      simp only [Sum.inl.injEq, Prod.mk.injEq, List.length_cons]
      constructor
      · have : (1 : Int) + ((g'.length - 1 : Nat) : Int) = ((g'.length + 1 - 1 : Nat) : Int) := by
          omega
        omega
      · trivial

/-- Outer loop of `_absolute_to_wrapped_index` at `abs_index = len(text)`:
the result is the last display line at its full length. -/
theorem a2wGroups_end (limit fb : Nat) (hl : 0 < limit) :
    ∀ gs : List (List (List Char)), gs ≠ [] → (∀ g ∈ gs, Chunked limit g) →
      ∀ wl : Int, a2wGroups limit fb wl (totalLenI gs) gs
        = (wl + (((gs.map List.length).sum - 1 : Nat) : Int),
           (((gs.getLastD []).getLastD []).length : Int)) := by
  intro gs
  induction gs with
  | nil => intro h; exact absurd rfl h
  | cons g gs' ih =>
    intro _ hch wl
    have hg := hch g (by simp)
    by_cases hnil : gs' = []
    · subst hnil
      rw [totalLenI_single]
      simp only [a2wGroups]
      rw [a2wGroup_end hl hg wl]
      simp
    · have htot : totalLenI (g :: gs') = ((groupLen g : Nat) : Int) + 1 + totalLenI gs' :=
        totalLenI_cons _ _ hnil
      have hfall := a2wGroup_fall hg wl (totalLenI (g :: gs'))
        (by rw [htot]; have := totalLenI_nonneg gs' hnil; omega)
      simp only [a2wGroups]
      rw [hfall]
      show a2wGroups limit fb (wl + (g.length : Int))
          (totalLenI (g :: gs') - ((groupLen g : Nat) : Int) - 1) gs' = _
      rw [show totalLenI (g :: gs') - ((groupLen g : Nat) : Int) - 1 = totalLenI gs' by
        rw [htot]; ring]
      rw [ih hnil (fun x hx => hch x (by simp [hx])) (wl + (g.length : Int))]
      have hsum := flatCount_pos gs' hnil (fun x hx => hch x (by simp [hx]))
      have hlast : (g :: gs').getLastD [] = gs'.getLastD [] := by
        rw [List.getLastD_cons]
        exact getLastD_irrel hnil g []
      rw [hlast]
      simp only [Prod.mk.injEq, List.map_cons, List.sum_cons]
      constructor
      · omega
      · trivial

/-- The loop of `_wrapped_to_absolute_index` at the last wrapped line: the
accumulated absolute length is the whole document minus the last display
line. -/
theorem w2aGroups_last (limit : Nat) (_hl : 0 < limit) :
    ∀ gs : List (List (List Char)), gs ≠ [] → (∀ g ∈ gs, Chunked limit g) →
      w2aGroups (((gs.map List.length).sum : Int) - 1) 0 gs
        = totalLenI gs - (((gs.getLastD []).getLastD []).length : Int) := by
  intro gs
  induction gs with
  | nil => intro h; exact absurd rfl h
  | cons g gs' ih =>
    intro _ hch
    have hg := hch g (by simp)
    have hgpos := hg.length_pos
    by_cases hnil : gs' = []
    · subst hnil
      simp only [List.map_cons, List.map_nil, List.sum_cons, List.sum_nil, Nat.add_zero]
      simp only [w2aGroups]
      rw [if_neg (by omega)]
      have htk : pySliceTo ((g.length : Int) - 1) g = g.take (g.length - 1) := by
        unfold pySliceTo
        rw [if_pos (by omega)]
        congr 1
        omega
      rw [htk, chunked_take_groupLen hg (g.length - 1) (by omega)]
      rw [totalLenI_single, chunked_groupLen_eq hg]
      have hLD : (([g] : List (List (List Char))).getLastD []) = g := rfl
      rw [hLD]
      push_cast
      ring
    · have hsum' := flatCount_pos gs' hnil (fun x hx => hch x (by simp [hx]))
      simp only [List.map_cons, List.sum_cons]
      simp only [w2aGroups]
      rw [if_pos (by omega)]
      rw [show ((g.length + (gs'.map List.length).sum : Nat) : Int) - 1 - (g.length : Int)
          = (((gs'.map List.length).sum : Nat) : Int) - 1 by omega]
      rw [show (0 : Int) + ((groupLen g : Nat) : Int) + 1
          = 0 + (((groupLen g : Nat) : Int) + 1) by ring]
      rw [w2aGroups_shift (((groupLen g : Nat) : Int) + 1) gs' _ 0]
      rw [ih hnil (fun x hx => hch x (by simp [hx]))]
      rw [totalLenI_cons g gs' hnil]
      have hlast : (g :: gs').getLastD [] = gs'.getLastD [] := by
        rw [List.getLastD_cons]
        exact getLastD_irrel hnil g []
      rw [hlast]
      ring

/-- Reading the cursor at `abs = len(text)` yields the last display line index
and the last display line's full length. -/
theorem a2w_end_eq (limit : Nat) (hl : 0 < limit) (text : List Char) :
    absoluteToWrappedIndex limit text (text.length : Int)
      = (((logicLines limit text).length : Int) - 1,
         (((logicLines limit text).getLastD []).length : Int)) := by
  have hne := displayLines_ne_nil limit text
  have hch := chunked_displayLines limit hl text
  have hmem : ∀ g ∈ displayLines limit text, g ≠ [] := fun g hg => (hch g hg).ne_nil
  have hsum := flatCount_pos (displayLines limit text) hne hch
  unfold absoluteToWrappedIndex
  have hclamp : max 0 (min (text.length : Int) (text.length : Int))
      = totalLenI (displayLines limit text) := by
    rw [totalLenI_displayLines]
    omega
  rw [hclamp, a2wGroups_end limit _ hl (displayLines limit text) hne hch 0]
  unfold logicLines
  rw [List.length_flatten, flatten_getLastD [] (displayLines limit text) hne hmem]
  simp only [Prod.mk.injEq]
  constructor
  · omega
  · trivial

/-- Setting the cursor to the last display line at its full length yields the
absolute index `len(text)`. -/
theorem w2a_end_eq (limit : Nat) (hl : 0 < limit) (text : List Char) :
    wrappedToAbsoluteIndex limit text (((logicLines limit text).length : Int) - 1)
      (((logicLines limit text).getLastD []).length : Int) = (text.length : Int) := by
  by_cases htext : text = []
  · subst htext
    unfold wrappedToAbsoluteIndex
    rw [if_pos rfl]
    rfl
  · have hne := displayLines_ne_nil limit text
    have hch := chunked_displayLines limit hl text
    have hmem : ∀ g ∈ displayLines limit text, g ≠ [] := fun g hg => (hch g hg).ne_nil
    have hsum := flatCount_pos (displayLines limit text) hne hch
    have hlastlen : (((logicLines limit text).getLastD []).length : Int)
        = ((((displayLines limit text).getLastD []).getLastD []).length : Int) := by
      unfold logicLines
      rw [flatten_getLastD [] (displayLines limit text) hne hmem]
    have hlaste : (displayLines limit text).getLastD [] ∈ displayLines limit text :=
      getLastD_mem [] (displayLines limit text) hne
    have hcl : (((displayLines limit text).getLastD []).getLastD []).length ≤ limit :=
      chunked_last_le (hch _ hlaste)
    have hN : ((logicLines limit text).length : Int)
        = (((displayLines limit text).map List.length).sum : Int) := by
      unfold logicLines
      rw [List.length_flatten]
    unfold wrappedToAbsoluteIndex
    rw [if_neg htext]
    have hdiv : (((logicLines limit text).getLastD []).length : Int) / ((limit : Int) + 1)
        = 0 := by
      apply Int.ediv_eq_zero_of_lt (by positivity)
      rw [hlastlen]
      omega
    have hmod : (((logicLines limit text).getLastD []).length : Int) % ((limit : Int) + 1)
        = (((logicLines limit text).getLastD []).length : Int) := by
      apply Int.emod_eq_of_lt (by positivity)
      rw [hlastlen]
      omega
    simp only [hdiv, hmod, add_zero]
    by_cases hN1 : ((logicLines limit text).length : Int) - 1 = 0
    · rw [if_pos hN1]
      have hone : ((displayLines limit text).map List.length).sum = 1 := by
        rw [hN] at hN1
        omega
      have := flatCount_one (displayLines limit text) hne hch hone
      rw [hlastlen, ← this, totalLenI_displayLines]
    · rw [if_neg hN1]
      rw [hN, hlastlen]
      rw [w2aGroups_last limit hl (displayLines limit text) hne hch]
      rw [totalLenI_displayLines]
      have hlen0 : (0 : Int) ≤ ((((displayLines limit text).getLastD []).getLastD []).length : Int) := by
        positivity
      omega

theorem getD_last {α : Type} (d : α) : ∀ l : List α, l ≠ [] → l.getD (l.length - 1) d = l.getLastD d := by
  intro l
  induction l with
  | nil => intro h; exact absurd rfl h
  | cons a t ih =>
    intro _
    cases t with
    | nil => rfl
    | cons b t' =>
      have h1 : (a :: b :: t').length - 1 = t'.length + 1 := by simp
      rw [h1, List.getD_cons_succ]
      have h2 : (b :: t').length - 1 = t'.length := by simp
      rw [List.getLastD_cons, getLastD_irrel (by simp) a d, ← ih (by simp), h2]

theorem flatten_ne_nil {α : Type} :
    ∀ {gs : List (List α)}, gs ≠ [] → (∀ g ∈ gs, g ≠ []) → gs.flatten ≠ [] := by
  intro gs hne hmem
  cases gs with
  | nil => exact absurd rfl hne
  | cons g t =>
    have hg := hmem g (by simp)
    simp only [List.flatten_cons, ne_eq, List.append_eq_nil]
    intro hc
    exact hg hc.1

theorem logicLines_ne_nil (limit : Nat) (hl : 0 < limit) (text : List Char) :
    logicLines limit text ≠ [] := by
  have hne := displayLines_ne_nil limit text
  have hch := chunked_displayLines limit hl text
  unfold logicLines
  exact flatten_ne_nil hne (fun g hg => (hch g hg).ne_nil)

/-- The clamping phase of the `cursor` setter, without the overflow fold. -/
def cursorClampAbs (limit : Nat) (text : List Char) (line col : Int) : Int :=
  let ll := logicLines limit text
  let N : Int := ll.length
  let line2 : Int := min line N
  let line3 : Int := if N ≤ line2 then N - 1 else line2
  let col2 : Int :=
    if N ≤ line2 then ((ll.getD (N - 1).toNat []).length : Int)
    else min col ((ll.getD line2.toNat []).length : Int)
  min (wrappedToAbsoluteIndex limit text line3 col2) (text.length : Int)

/-- C8 counterexample: on 18 copies of `'a'` with `line_limit = 5`, assigning
cursor `(0, 13)` gives the absolute cursor 10, while assigning
`(0 + 13 div 6, 13 mod 6) = (2, 1)` gives 11 — the setter does not fold
column overflow with the virtual wrap width `line_limit + 1`. -/
theorem C8_divmod_counterexample :
    cursorSetAbs 5 (List.replicate 18 'a') 0 13 = 10
    ∧ (0 : Int) + 13 / ((5 : Int) + 1) = 2
    ∧ (13 : Int) % ((5 : Int) + 1) = 1
    ∧ cursorSetAbs 5 (List.replicate 18 'a') 2 1 = 11
    ∧ (10 : Int) ≠ 11 := by
  refine ⟨?_, by decide, by decide, ?_, by decide⟩
  · simp only [cursorSetAbs, wrappedToAbsoluteIndex, logicLines,
      displayLines_eq 5 (by decide)]
    decide
  · simp only [cursorSetAbs, wrappedToAbsoluteIndex, logicLines,
      displayLines_eq 5 (by decide)]
    decide

/-- C8 (amended): for `col > line_limit` the setter folds the overflow exactly
once — it coincides with the clamp-only phase applied to
`(line + 1, col - line_limit)` — instead of normalizing `col` with `divmod` by
the virtual wrap width `line_limit + 1`. -/
theorem C8_single_fold (limit : Nat) (text : List Char) (line col : Int)
    (h : (limit : Int) < col) :
    cursorSetAbs limit text line col = cursorClampAbs limit text (line + 1) (col - limit) := by
  unfold cursorSetAbs cursorClampAbs
  rw [if_pos h, if_pos h]

theorem C8_single_fold_witness :
    cursorSetAbs 5 (List.replicate 18 'a') 0 13
      = cursorClampAbs 5 (List.replicate 18 'a') (0 + 1) (13 - 5) :=
  C8_single_fold 5 (List.replicate 18 'a') 0 13 (by decide)

/-- C9: whenever the cursor reads `(l, line_limit)` — the boundary position of
an exactly full display line — `move_up` performs exactly the assignment
`cursor = (l, 0)`: it leaves the editor in the state of that assignment. -/
theorem C9_move_up_boundary (s : EditorState) (l : Nat)
    (h : cursorRead s = ((l : Int), (s.lineLimit : Int))) :
    moveUp s = cursorSetState s ((l : Nat) : Int) 0 := by
  unfold moveUp
  rw [h]
  norm_num
  rw [if_neg (by omega : ¬((l : Int) < 0))]

theorem C9_move_up_boundary_witness :
    moveUp ⟨5, "aaaaa".toList, 5⟩ = cursorSetState ⟨5, "aaaaa".toList, 5⟩ ((0 : Nat) : Int) 0 :=
  C9_move_up_boundary ⟨5, "aaaaa".toList, 5⟩ 0 (by
    simp only [cursorRead, absoluteToWrappedIndex, displayLines_eq 5 (by decide)]
    decide)

/-- C5 counterexample: on `"Line 1\nLine 2\nLine 3"` with `line_limit = 10`
(20 characters, display lines of lengths 6/6/6), assigning cursor `(0, 100)` —
a pair denoting a position far beyond the document end — yields the absolute
cursor 13 and the wrapped cursor `(1, 6)`, not the end-of-document cursor
`(2, 6)` at absolute position 20: the setter folds the overflow into line 1
and clamps there. -/
theorem C5_beyond_end_counterexample :
    cursorSetAbs 10 "Line 1\nLine 2\nLine 3".toList 0 100 = 13
    ∧ "Line 1\nLine 2\nLine 3".toList.length = 20
    ∧ (13 : Int) ≠ 20
    ∧ absoluteToWrappedIndex 10 "Line 1\nLine 2\nLine 3".toList 13 = (1, 6)
    ∧ ((1, 6) : Int × Int) ≠ (2, 6) := by
  refine ⟨?_, by decide, by decide, ?_, by decide⟩
  · simp only [cursorSetAbs, wrappedToAbsoluteIndex, logicLines,
      displayLines_eq 10 (by decide)]
    decide
  · simp only [absoluteToWrappedIndex, displayLines_eq 10 (by decide)]
    decide

/-- C5 (amended): setting the cursor to a non-negative integer pair lying on
or past the last display line — after the setter's single overflow fold, the
line component reaches past the display lines, or names the last display line
with a column at or past its length — never raises and yields exactly the
end-of-document cursor: the absolute cursor becomes `len(text)` and the
cursor read back is `(last display line index, last display line length)`. -/
theorem C5_clamp_to_end (s : EditorState) (hl : 0 < s.lineLimit) (l c : Int)
    (hl0 : 0 ≤ l) (hc0 : 0 ≤ c)
    (hbeyond :
      ((logicLines s.lineLimit s.text).length : Int)
          ≤ (if (s.lineLimit : Int) < c then l + 1 else l)
      ∨ ((if (s.lineLimit : Int) < c then l + 1 else l)
            = ((logicLines s.lineLimit s.text).length : Int) - 1
          ∧ (((logicLines s.lineLimit s.text).getLastD []).length : Int)
            ≤ (if (s.lineLimit : Int) < c then c - (s.lineLimit : Int) else c))) :
    validateCursor (PyVal.tuple [PyVal.int l, PyVal.int c]) = Except.ok ()
    ∧ cursorSetAbs s.lineLimit s.text l c = (s.text.length : Int)
    ∧ absoluteToWrappedIndex s.lineLimit s.text (s.text.length : Int)
        = (((logicLines s.lineLimit s.text).length : Int) - 1,
           (((logicLines s.lineLimit s.text).getLastD []).length : Int)) := by
  have hval : validateCursor (PyVal.tuple [PyVal.int l, PyVal.int c]) = Except.ok () := by
    unfold validateCursor
    rw [if_neg (by simp [isInstTupleOrList]), if_neg (by simp [pyElems]),
      if_neg (by simp [pyElems, isInstInt, isInstBool]),
      if_neg (by show ¬(l < 0); omega),
      if_neg (by show ¬(c < 0); omega)]
  have hNpos : 0 < (logicLines s.lineLimit s.text).length :=
    List.length_pos.2 (logicLines_ne_nil s.lineLimit hl s.text)
  have hgd : (logicLines s.lineLimit s.text).getD
        (((logicLines s.lineLimit s.text).length : Int) - 1).toNat []
      = (logicLines s.lineLimit s.text).getLastD [] := by
    rw [show ((((logicLines s.lineLimit s.text).length : Int) - 1)).toNat
        = (logicLines s.lineLimit s.text).length - 1 by omega]
    exact getD_last [] _ (logicLines_ne_nil s.lineLimit hl s.text)
  have hw2a := w2a_end_eq s.lineLimit hl s.text
  refine ⟨hval, ?_, a2w_end_eq s.lineLimit hl s.text⟩
  simp only [cursorSetAbs]
  by_cases hcl : (s.lineLimit : Int) < c
  · rw [if_pos hcl, if_pos hcl] at hbeyond ⊢
    rcases hbeyond with hb1 | hb2
    · rw [min_eq_right hb1, if_pos (le_refl _), if_pos (le_refl _), hgd, hw2a]
      omega
    · have hNle : ((logicLines s.lineLimit s.text).length : Int) - 1
          ≤ ((logicLines s.lineLimit s.text).length : Int) := by omega
      have hNnot : ¬(((logicLines s.lineLimit s.text).length : Int)
          ≤ ((logicLines s.lineLimit s.text).length : Int) - 1) := by omega
      rw [hb2.1, min_eq_left hNle, if_neg hNnot, if_neg hNnot, hgd,
        min_eq_right hb2.2, hw2a]
      omega
  · rw [if_neg hcl, if_neg hcl] at hbeyond ⊢
    rcases hbeyond with hb1 | hb2
    · rw [min_eq_right hb1, if_pos (le_refl _), if_pos (le_refl _), hgd, hw2a]
      omega
    · have hNle : ((logicLines s.lineLimit s.text).length : Int) - 1
          ≤ ((logicLines s.lineLimit s.text).length : Int) := by omega
      have hNnot : ¬(((logicLines s.lineLimit s.text).length : Int)
          ≤ ((logicLines s.lineLimit s.text).length : Int) - 1) := by omega
      rw [hb2.1, min_eq_left hNle, if_neg hNnot, if_neg hNnot, hgd,
        min_eq_right hb2.2, hw2a]
      omega

theorem C5_clamp_to_end_witness :
    validateCursor (PyVal.tuple [PyVal.int 5, PyVal.int 7]) = Except.ok ()
    ∧ cursorSetAbs 10 "Line 1\nLine 2\nLine 3".toList 5 7
        = ("Line 1\nLine 2\nLine 3".toList.length : Int)
    ∧ absoluteToWrappedIndex 10 "Line 1\nLine 2\nLine 3".toList
          ("Line 1\nLine 2\nLine 3".toList.length : Int)
        = (((logicLines 10 "Line 1\nLine 2\nLine 3".toList).length : Int) - 1,
           (((logicLines 10 "Line 1\nLine 2\nLine 3".toList).getLastD []).length : Int)) :=
  C5_clamp_to_end ⟨10, "Line 1\nLine 2\nLine 3".toList, 0⟩ (by decide) 5 7
    (by decide) (by decide)
    (Or.inl (by
      simp only [logicLines, displayLines_eq 10 (by decide)]
      decide))

end TE
